import Mathlib

/-!
Verification of `src/challenges/challenge_2026_01_19_1768898874771.cpp`.

The file defines a class `Solution` with two member functions:

* `std::vector<int> processData(std::vector<int>& data)` — walks `data` in
  order, keeping a `std::set<int> seen` and a `std::vector<int> result`;
  every element not yet in `seen` is inserted into `seen` and appended to
  `result`; finally `result` is sorted ascending with `std::sort` and
  returned.
* `bool validateInput(std::vector<int>& data)` — returns `!data.empty()`.

We embed `std::vector<int>` as `List Int`.  The `std::set<int> seen` is
used only for membership tests and insertion, so it is embedded as the
list of values inserted so far (membership in that list is exactly
membership in the C++ set).  `std::sort` ascending is embedded as
`List.insertionSort (· ≤ ·)`.
-/

namespace Solution

/-- The `for (int item : data)` loop of `Solution::processData`:
`seen` is the set of values seen so far, `result` the accumulator, and the
third argument the remaining elements of `data`.  Each element not in
`seen` is added to `seen` and appended (`push_back`) to `result`. -/
def processDataGo (seen result : List Int) : List Int → List Int
  | [] => result
  | item :: rest =>
    if item ∈ seen then processDataGo seen result rest
    else processDataGo (item :: seen) (result ++ [item]) rest

/-- `Solution::processData`: run the dedup loop on `data` starting from an
empty `seen` set and an empty `result`, then sort the accumulator
ascending (`std::sort(result.begin(), result.end())`). -/
def processData (data : List Int) : List Int :=
  List.insertionSort (· ≤ ·) (processDataGo [] [] data)

/-- `Solution::validateInput`: `return !data.empty();`. -/
def validateInput (data : List Int) : Bool :=
  !data.isEmpty

/-- `Solution::processData` takes `data` by reference; its body reads
`data` (the range-`for` loop) and never assigns to it — all writes go to
the locals `seen` and `result`.  The call is therefore modelled as
returning both the function result and the final contents of the
referenced vector, which are its initial contents. -/
def processDataCall (data : List Int) : List Int × List Int :=
  (processData data, data)

/-- `Solution::validateInput` likewise only reads `data`. -/
def validateInputCall (data : List Int) : Bool × List Int :=
  (validateInput data, data)

/-! ### Basic lemmas about the dedup loop -/

/-- Membership in the loop result: an element is in
`processDataGo seen result l` iff it is already in `result`, or occurs in
`l` and is not in `seen`. -/
theorem mem_processDataGo (l : List Int) :
    ∀ (seen result : List Int) (x : Int),
      x ∈ processDataGo seen result l ↔ x ∈ result ∨ (x ∈ l ∧ x ∉ seen) := by
  induction l with
  | nil => intro seen result x; simp [processDataGo]
  | cons a rest ih =>
    intro seen result x
    by_cases ha : a ∈ seen
    · simp only [processDataGo, if_pos ha, ih]
      constructor
      · rintro (hr | ⟨hl, hs⟩)
        · exact Or.inl hr
        · exact Or.inr ⟨List.mem_cons_of_mem _ hl, hs⟩
      · rintro (hr | ⟨hl, hs⟩)
        · exact Or.inl hr
        · rcases List.mem_cons.mp hl with rfl | hl
          · exact absurd ha hs
          · exact Or.inr ⟨hl, hs⟩
    · simp only [processDataGo, if_neg ha, ih]
      constructor
      · rintro (hr | ⟨hl, hs⟩)
        · rcases List.mem_append.mp hr with hr | hr
          · exact Or.inl hr
          · rcases List.mem_singleton.mp hr with rfl
            exact Or.inr ⟨List.mem_cons_self _ _, ha⟩
        · refine Or.inr ⟨List.mem_cons_of_mem _ hl, ?_⟩
          intro hx; exact hs (List.mem_cons_of_mem _ hx)
      · rintro (hr | ⟨hl, hs⟩)
        · exact Or.inl (List.mem_append_left _ hr)
        · rcases List.mem_cons.mp hl with rfl | hl
          · exact Or.inl (List.mem_append_right _ (List.mem_singleton.mpr rfl))
          · by_cases hxa : x = a
            · subst hxa
              exact Or.inl (List.mem_append_right _ (List.mem_singleton.mpr rfl))
            · refine Or.inr ⟨hl, ?_⟩
              intro hx
              rcases List.mem_cons.mp hx with h | h
              · exact hxa h
              · exact hs h

/-- The loop result has no duplicates, provided the accumulator has no
duplicates and every accumulated value is already marked seen (both hold
for the initial empty `result` and empty `seen`). -/
theorem nodup_processDataGo (l : List Int) :
    ∀ (seen result : List Int), result.Nodup → (∀ x ∈ result, x ∈ seen) →
      (processDataGo seen result l).Nodup := by
  induction l with
  | nil => intro seen result hnd _; simpa [processDataGo] using hnd
  | cons a rest ih =>
    intro seen result hnd hsub
    by_cases ha : a ∈ seen
    · simpa [processDataGo, if_pos ha] using ih seen result hnd hsub
    · simp only [processDataGo, if_neg ha]
      refine ih (a :: seen) (result ++ [a]) ?_ ?_
      · refine List.Nodup.append hnd (List.nodup_singleton a) ?_
        intro x hx hx'
        rcases List.mem_singleton.mp hx' with rfl
        exact ha (hsub x hx)
      · intro x hx
        rcases List.mem_append.mp hx with hx | hx
        · exact List.mem_cons_of_mem _ (hsub x hx)
        · rcases List.mem_singleton.mp hx with rfl
          exact List.mem_cons_self _ _

/-- If no element of `l` has been seen yet and `l` has no duplicates, the
loop appends all of `l` to the accumulator. -/
theorem processDataGo_of_nodup (l : List Int) :
    ∀ (seen result : List Int), l.Nodup → (∀ x ∈ l, x ∉ seen) →
      processDataGo seen result l = result ++ l := by
  induction l with
  | nil => intro seen result _ _; simp [processDataGo]
  | cons a rest ih =>
    intro seen result hnd hfresh
    have ha : a ∉ seen := hfresh a (List.mem_cons_self _ _)
    simp only [processDataGo, if_neg ha]
    rw [ih (a :: seen) (result ++ [a]) (List.Nodup.of_cons hnd) ?_]
    · simp
    · intro x hx hx'
      rcases List.mem_cons.mp hx' with rfl | hx''
      · exact (List.nodup_cons.mp hnd).1 hx
      · exact hfresh x (List.mem_cons_of_mem _ hx) hx''

/-- The accumulator produced by the loop from empty `seen`/`result` has no
duplicates. -/
theorem nodup_processDataGo_nil (data : List Int) :
    (processDataGo [] [] data).Nodup :=
  nodup_processDataGo data [] [] List.nodup_nil (by intro x hx; cases hx)

/-- `processData` output has no duplicates: the accumulator has none and
`std::sort` permutes it. -/
theorem nodup_processData (data : List Int) : (processData data).Nodup :=
  (List.perm_insertionSort _ _).nodup_iff.mpr (nodup_processDataGo_nil data)

/-- `processData` output is sorted w.r.t. `≤` (what `std::sort` gives). -/
theorem sorted_le_processData (data : List Int) :
    (processData data).Sorted (· ≤ ·) :=
  List.sorted_insertionSort _ _

/-- A value occurs in `processData data` iff it occurs in `data`. -/
theorem mem_processData (data : List Int) (x : Int) :
    x ∈ processData data ↔ x ∈ data := by
  unfold processData
  rw [(List.perm_insertionSort (· ≤ ·) (processDataGo [] [] data)).mem_iff,
    mem_processDataGo]
  simp

/-- `processData` output is strictly sorted. -/
theorem sorted_lt_processData (data : List Int) :
    (processData data).Sorted (· < ·) :=
  (sorted_le_processData data).lt_of_le (nodup_processData data)

/-- Length of the loop result is at most accumulator length plus remaining
input length. -/
theorem length_processDataGo_le (l : List Int) :
    ∀ (seen result : List Int),
      (processDataGo seen result l).length ≤ result.length + l.length := by
  induction l with
  | nil => intro seen result; simp [processDataGo]
  | cons a rest ih =>
    intro seen result
    by_cases ha : a ∈ seen
    · simp only [processDataGo, if_pos ha, List.length_cons]
      have := ih seen result
      omega
    · simp only [processDataGo, if_neg ha, List.length_cons]
      have := ih (a :: seen) (result ++ [a])
      simp only [List.length_append, List.length_singleton] at this
      omega

/-- The loop result has full length exactly when the remaining input has no
duplicates and no element of it was seen before. -/
theorem length_processDataGo_eq_iff (l : List Int) :
    ∀ (seen result : List Int),
      (processDataGo seen result l).length = result.length + l.length ↔
        l.Nodup ∧ ∀ x ∈ l, x ∉ seen := by
  induction l with
  | nil => intro seen result; simp [processDataGo]
  | cons a rest ih =>
    intro seen result
    by_cases ha : a ∈ seen
    · simp only [processDataGo, if_pos ha, List.length_cons]
      have hle := length_processDataGo_le rest seen result
      constructor
      · intro h; omega
      · rintro ⟨-, hfresh⟩
        exact absurd ha (hfresh a (List.mem_cons_self _ _))
    · simp only [processDataGo, if_neg ha, List.length_cons]
      have hIH := ih (a :: seen) (result ++ [a])
      simp only [List.length_append, List.length_singleton] at hIH
      constructor
      · intro h
        have h' : rest.Nodup ∧ ∀ x ∈ rest, x ∉ a :: seen := by
          rw [← hIH]; omega
        obtain ⟨hnd, hfresh⟩ := h'
        refine ⟨List.nodup_cons.mpr ⟨?_, hnd⟩, ?_⟩
        · intro hmem
          exact hfresh a hmem (List.mem_cons_self _ _)
        · intro x hx
          rcases List.mem_cons.mp hx with rfl | hx
          · exact ha
          · intro hs; exact hfresh x hx (List.mem_cons_of_mem _ hs)
      · rintro ⟨hnd, hfresh⟩
        have h' : (processDataGo (a :: seen) (result ++ [a]) rest).length =
            result.length + 1 + rest.length := by
          rw [hIH]
          refine ⟨(List.nodup_cons.mp hnd).2, ?_⟩
          intro x hx hs
          rcases List.mem_cons.mp hs with rfl | hs
          · exact (List.nodup_cons.mp hnd).1 hx
          · exact hfresh x (List.mem_cons_of_mem _ hx) hs
        omega

/-! ### The spec's alternative algorithm (ordered set) -/

/-- Modelled from the spec: insertion of one value into an ordered set,
represented as a strictly increasing list; inserting a value already
present leaves the set unchanged. -/
def orderedSetInsert (x : Int) : List Int → List Int
  | [] => [x]
  | y :: ys =>
    if x < y then x :: y :: ys
    else if x = y then y :: ys
    else y :: orderedSetInsert x ys

/-- Modelled from the spec: "insert all elements into an ordered set
directly and read it back in order". -/
def dedupSortAlt (data : List Int) : List Int :=
  data.foldl (fun s x => orderedSetInsert x s) []

/-- Membership after an ordered-set insertion. -/
theorem mem_orderedSetInsert (x : Int) (s : List Int) (y : Int) :
    y ∈ orderedSetInsert x s ↔ y = x ∨ y ∈ s := by
  induction s with
  | nil => simp [orderedSetInsert]
  | cons a t ih =>
    by_cases h1 : x < a
    · simp [orderedSetInsert, if_pos h1]
    · by_cases h2 : x = a
      · subst h2
        have hrw : orderedSetInsert x (x :: t) = x :: t := by
          simp [orderedSetInsert]
        rw [hrw, List.mem_cons]
        tauto
      · simp only [orderedSetInsert, if_neg h1, if_neg h2, List.mem_cons, ih]
        tauto

/-- Ordered-set insertion preserves strict sortedness. -/
theorem pairwise_orderedSetInsert (x : Int) (s : List Int)
    (hs : s.Pairwise (· < ·)) : (orderedSetInsert x s).Pairwise (· < ·) := by
  induction s with
  | nil => simp [orderedSetInsert]
  | cons a t ih =>
    have ha : ∀ y ∈ t, a < y := fun y hy => List.rel_of_pairwise_cons hs hy
    have ht : t.Pairwise (· < ·) := (List.pairwise_cons.mp hs).2
    by_cases h1 : x < a
    · simp only [orderedSetInsert, if_pos h1]
      refine List.pairwise_cons.mpr ⟨?_, hs⟩
      intro y hy
      rcases List.mem_cons.mp hy with rfl | hy
      · exact h1
      · exact lt_trans h1 (ha y hy)
    · by_cases h2 : x = a
      · simpa [orderedSetInsert, if_neg h1, if_pos h2] using hs
      · have hax : a < x := by
          rcases lt_trichotomy x a with h | h | h
          · exact absurd h h1
          · exact absurd h h2
          · exact h
        simp only [orderedSetInsert, if_neg h1, if_neg h2]
        refine List.pairwise_cons.mpr ⟨?_, ih ht⟩
        intro y hy
        rcases (mem_orderedSetInsert x t y).mp hy with rfl | hy
        · exact hax
        · exact ha y hy

/-- The fold of ordered-set insertions keeps the set strictly sorted. -/
theorem pairwise_foldl_orderedSetInsert (data : List Int) :
    ∀ s : List Int, s.Pairwise (· < ·) →
      (data.foldl (fun t x => orderedSetInsert x t) s).Pairwise (· < ·) := by
  induction data with
  | nil => intro s hs; simpa using hs
  | cons a rest ih =>
    intro s hs
    simpa [List.foldl_cons] using ih (orderedSetInsert a s) (pairwise_orderedSetInsert a s hs)

/-- Membership in the fold of ordered-set insertions. -/
theorem mem_foldl_orderedSetInsert (data : List Int) :
    ∀ (s : List Int) (y : Int),
      y ∈ data.foldl (fun t x => orderedSetInsert x t) s ↔ y ∈ s ∨ y ∈ data := by
  induction data with
  | nil => intro s y; simp
  | cons a rest ih =>
    intro s y
    simp only [List.foldl_cons, ih (orderedSetInsert a s) y, mem_orderedSetInsert,
      List.mem_cons]
    tauto

/-- `dedupSortAlt` is strictly sorted. -/
theorem sorted_lt_dedupSortAlt (data : List Int) :
    (dedupSortAlt data).Pairwise (· < ·) :=
  pairwise_foldl_orderedSetInsert data [] List.Pairwise.nil

/-- Membership in `dedupSortAlt`. -/
theorem mem_dedupSortAlt (data : List Int) (y : Int) :
    y ∈ dedupSortAlt data ↔ y ∈ data := by
  unfold dedupSortAlt
  rw [mem_foldl_orderedSetInsert]
  simp

/-- Two strictly sorted integer lists with the same members are equal. -/
theorem eq_of_sorted_lt_of_mem_iff (l1 l2 : List Int)
    (h1 : l1.Pairwise (· < ·)) (h2 : l2.Pairwise (· < ·))
    (hm : ∀ x, x ∈ l1 ↔ x ∈ l2) : l1 = l2 := by
  have hn1 : l1.Nodup := h1.imp (fun h => ne_of_lt h)
  have hn2 : l2.Nodup := h2.imp (fun h => ne_of_lt h)
  have hperm : l1.Perm l2 := (List.perm_ext_iff_of_nodup hn1 hn2).mpr hm
  exact List.eq_of_perm_of_sorted hperm
    (h1.imp fun h => le_of_lt h) (h2.imp fun h => le_of_lt h)

/-! ### Claim theorems -/

/-- C1: for every input sequence of integers, the output of
`Solution::processData` is sorted strictly ascending (each element is
strictly less than the next), hence it contains no duplicate values. -/
theorem processData_strictly_sorted (data : List Int) :
    (processData data).Pairwise (· < ·) ∧ (processData data).Nodup :=
  ⟨sorted_lt_processData data, nodup_processData data⟩

/-- C2: the set of values occurring in `processData data` equals the set
of distinct values occurring in `data`: a value is in the output iff it is
in the input. -/
theorem processData_mem_iff (data : List Int) (x : Int) :
    x ∈ processData data ↔ x ∈ data :=
  mem_processData data x

/-- C3: `Solution::processData` is idempotent — applying it twice gives
the same result as applying it once. -/
theorem processData_idempotent (data : List Int) :
    processData (processData data) = processData data := by
  have hnd : (processData data).Nodup := nodup_processData data
  have hgo : processDataGo [] [] (processData data) = processData data := by
    have h := processDataGo_of_nodup (processData data) [] [] hnd
      (by intro x _ hx; cases hx)
    simpa using h
  show List.insertionSort (· ≤ ·) (processDataGo [] [] (processData data)) =
    processData data
  rw [hgo]
  exact (sorted_le_processData data).insertionSort_eq

/-- C4: `Solution::validateInput` returns true exactly when the input has
at least one element; in particular it returns false on the empty sequence
and true on every one-element sequence. -/
theorem validateInput_nonempty :
    (∀ data : List Int, validateInput data = true ↔ 1 ≤ data.length) ∧
      validateInput ([] : List Int) = false ∧
      ∀ x : Int, validateInput [x] = true := by
  refine ⟨?_, rfl, fun x => rfl⟩
  intro data
  cases data <;> simp [validateInput]

/-- C5: `Solution::processData` returns the spec's outputs on the spec's
concrete examples: `[3, 1, 2, 3, 1] ↦ [1, 2, 3]`, `[] ↦ []`, and
`[5, 5, 5, 5] ↦ [5]`. -/
theorem processData_examples :
    processData [3, 1, 2, 3, 1] = [1, 2, 3] ∧
      processData [] = [] ∧
      processData [5, 5, 5, 5] = [5] := by
  refine ⟨?_, ?_, ?_⟩ <;> decide

/-- C6: neither call writes through the `data` reference — the vector
observed after either call is the vector passed in, and the result of
`processData` is the freshly built accumulator (a new sequence computed
from the input's values, not the input object). -/
theorem processData_no_side_effects (data : List Int) :
    (processDataCall data).2 = data ∧ (validateInputCall data).2 = data ∧
      (processDataCall data).1 = processData data :=
  ⟨rfl, rfl, rfl⟩

/-- C7: the implemented algorithm (seen-set, first occurrences in input
order, then sort ascending) produces exactly the result of the spec's
alternative algorithm (insert every element into an ordered set and read
it back in ascending order). -/
theorem processData_eq_dedupSortAlt (data : List Int) :
    processData data = dedupSortAlt data :=
  eq_of_sorted_lt_of_mem_iff _ _ (sorted_lt_processData data)
    (sorted_lt_dedupSortAlt data)
    (fun x => by rw [mem_processData, mem_dedupSortAlt])

/-- C8: `Solution::processData` is total — for every finite input
sequence, including the empty one, it produces a result (the embedding is
a total function with no error or failure branch). -/
theorem processData_total (data : List Int) :
    (∃ r : List Int, processData data = r) ∧ processData ([] : List Int) = [] :=
  ⟨⟨processData data, rfl⟩, rfl⟩

/-- C9: the two operations agree on emptiness — `validateInput data`
returns false iff `processData data` is the empty sequence. -/
theorem validateInput_false_iff_processData_nil (data : List Int) :
    validateInput data = false ↔ processData data = [] := by
  constructor
  · intro h
    have hnil : data = [] := by
      cases data with
      | nil => rfl
      | cons a t => simp [validateInput] at h
    subst hnil
    rfl
  · intro h
    cases data with
    | nil => rfl
    | cons a t =>
      exfalso
      have hm : a ∈ processData (a :: t) :=
        (mem_processData (a :: t) a).mpr (List.mem_cons_self _ _)
      rw [h] at hm
      cases hm

/-- C10: the output of `Solution::processData` is never longer than the
input, and has the same length exactly when the input contains no
duplicate values. -/
theorem processData_length_le (data : List Int) :
    (processData data).length ≤ data.length ∧
      ((processData data).length = data.length ↔ data.Nodup) := by
  have hlen : (processData data).length = (processDataGo [] [] data).length :=
    (List.perm_insertionSort (· ≤ ·) (processDataGo [] [] data)).length_eq
  have hle := length_processDataGo_le data [] []
  have heq := length_processDataGo_eq_iff data [] []
  simp only [List.length_nil, Nat.zero_add] at hle heq
  constructor
  · rw [hlen]; exact hle
  · rw [hlen, heq]
    simp

end Solution
